import Mathlib

/-!
Verification of the generational control core of `pymoo/model/algorithm.py`:
the optimum filter (`filter_optimum`), the result assembly in `solve`, the
termination resolution in `initialize`, the generational loop in
`_solve`/`next`, and the history snapshotting in `_each_iteration`.

Real numbers are modelled as rationals (`ℚ`) so that every definition is
executable and every predicate decidable.
-/

/-- Modelled from the spec: an `Individual` (`pymoo/model/individual.py` is
not among the sources) is one candidate solution carrying a decision vector
`X`, an objective vector `F`, an inequality-constraint vector `G` and the
aggregate constraint-violation scalar `CV`. -/
structure Individual where
  X : List ℚ
  F : List ℚ
  G : List ℚ
  CV : ℚ
deriving Repr, DecidableEq, Inhabited

/-- Modelled from the spec: feasibility is derived as `CV <= 0`. -/
def Individual.feasible (ind : Individual) : Bool :=
  decide (ind.CV ≤ 0)

/-- Modelled from the spec: a `Population` (`pymoo/model/population.py` is
not among the sources) is an ordered collection of individuals with
column-wise attribute access and index-based sub-selection. -/
abbrev Population := List Individual

/-- Numpy `np.argmin` over a flat array, paired with the minimum value:
numpy returns the index of the first occurrence of the minimum; `none`
models the error raised on an empty array. -/
def minWithIndex : List ℚ → Option (ℚ × Nat)
  | [] => none
  | x :: xs =>
    match minWithIndex xs with
    | none => some (x, 0)
    | some (v, j) => if x ≤ v then some (x, 0) else some (v, j + 1)

/-- The index component of `minWithIndex`: `np.argmin`. -/
def argmin (xs : List ℚ) : Option Nat :=
  (minWithIndex xs).map Prod.snd

/-- Modelled from the spec: Pareto dominance between two objective rows —
at least as good in every objective and strictly better in at least one. -/
def dominates (a b : List ℚ) : Bool :=
  ((a.zip b).all fun p => decide (p.1 ≤ p.2)) &&
    ((a.zip b).any fun p => decide (p.1 < p.2))

/-- Modelled from the spec: the non-dominated sorting service
(`pymoo/util/nds/non_dominated_sorting.py` is not among the sources) maps an
objective matrix to the indices of the rows no other row dominates
(`only_non_dominated_front=True`), in increasing index order. -/
def nonDominatedFront (F : List (List ℚ)) : List Nat :=
  (List.range F.length).filter fun i =>
    F.all fun fj => ! dominates fj (F.getD i [])

/-- Model of `filter_optimum(pop, least_infeasible=False)` from
`pymoo/model/algorithm.py`.  The `F.shape[1] > 1` test reads the width of
the (rectangular) objective matrix, i.e. the length of its first row;
`np.argmin(F)` flattens the matrix, and indexing a population with one
integer yields a single `Individual`, wrapped into a one-element
`Population` before returning. -/
def filterOptimum (pop : Population) (least_infeasible : Bool := false) :
    Option Population :=
  -- first only choose feasible solutions
  let ret := pop.filter fun ind => ind.feasible
  if 0 < ret.length then
    -- then check the objective values
    let F := ret.map fun ind => ind.F
    if 1 < (F.getD 0 []).length then
      some ((nonDominatedFront F).filterMap fun i => ret[i]?)
    else
      match argmin F.flatten with
      | some i => (ret[i]?).map fun ind => [ind]
      | none => none
  -- no feasible solution was found
  else
    if least_infeasible then
      match argmin (pop.map fun ind => ind.CV) with
      | some i => (pop[i]?).map fun ind => [ind]
      | none => none
    else
      none

/-- Specification-side definition for the refinement claim on the optimum
filter: the sub-list of the feasible individuals that no feasible
individual dominates, in the feasible subset's order. -/
def paretoFeasSubset (pop : Population) : Population :=
  let feas := pop.filter fun ind => ind.feasible
  feas.filter fun a => feas.all fun b => ! dominates b.F a.F

/-- One extracted field of a `Result`: `None`, a row-indexed matrix, or a
single squeezed row (`X[0]`, `F[0]`, `CV[0]`, `G[0]`). -/
inductive ResField where
  | null : ResField
  | mat (rows : List (List ℚ)) : ResField
  | row (r : List ℚ) : ResField
deriving Repr, DecidableEq

/-- Whether a result field was squeezed down to a bare row. -/
def ResField.isRow : ResField → Bool
  | .row _ => true
  | _ => false

/-- The slice of the `Result` object populated by `Algorithm.solve` that
the claims are about. -/
structure ResultM where
  opt : Option Population
  X : ResField
  F : ResField
  CV : ResField
  G : ResField
deriving Repr, DecidableEq

/-- The result assembly of `Algorithm.solve`: `selfOpt` is `self.opt` at
loop exit, `n_obj` is `self.problem.n_obj`, `rli` is
`self.return_least_infeasible`.  The source extracts `X, F, CV, G` from
`self.opt` (not from the local, possibly replaced, `opt`), and `CV` is an
n-by-1 column, so its squeezed form `CV[0]` is a one-element row. -/
def assembleResult (n_obj : Nat) (rli : Bool) (selfOpt : Population) :
    ResultM :=
  let opt : Option Population :=
    if selfOpt.length = 0 then none
    else if !(selfOpt.any fun ind => ind.feasible) then
      if rli then filterOptimum selfOpt true else none
    else some selfOpt
  match opt with
  | none => ⟨none, .null, .null, .null, .null⟩
  | some o =>
    let X := selfOpt.map fun ind => ind.X
    let Fm := selfOpt.map fun ind => ind.F
    let CVm := selfOpt.map fun ind => [ind.CV]
    let G := selfOpt.map fun ind => ind.G
    if n_obj = 1 ∧ X.length = 1 then
      ⟨some o, .row (X.getD 0 []), .row (Fm.getD 0 []),
       .row (CVm.getD 0 []), .row (G.getD 0 [])⟩
    else
      ⟨some o, .mat X, .mat Fm, .mat CVm, .mat G⟩

/-- The termination resolution in `Algorithm.initialize`: two successive
conditional assignments, each taken only while `self.termination` is still
`None`.  Termination criteria are opaque objects, modelled as tokens. -/
def resolveTermination (selfTermination arg dflt : Option Nat) :
    Option Nat :=
  let t := match selfTermination with
    | none => arg
    | some x => some x
  match t with
  | none => dflt
  | some x => some x

/-- The resolution order stated by the claim: the explicit argument first,
else the previously configured value, else the default. -/
def resolveTerminationClaim (selfTermination arg dflt : Option Nat) :
    Option Nat :=
  match arg with
  | some x => some x
  | none =>
    match selfTermination with
    | some x => some x
    | none => dflt

/-- The run state of an `Algorithm` instance, restricted to the fields the
claims are about.  `history` holds full state snapshots, so the type is
recursive (an `inductive`, since structures cannot refer to themselves);
`callback` is an opaque token.  Both are `Option`-valued so that the
`None`-detachment performed while snapshotting is representable. -/
inductive AlgoSt : Type where
  | mk (n_gen : Nat) (pop : Population) (opt : Option Population)
       (callback : Option Nat) (save_history : Bool)
       (history : Option (List AlgoSt)) : AlgoSt

def AlgoSt.n_gen : AlgoSt → Nat
  | .mk g _ _ _ _ _ => g

def AlgoSt.pop : AlgoSt → Population
  | .mk _ p _ _ _ _ => p

def AlgoSt.opt : AlgoSt → Option Population
  | .mk _ _ o _ _ _ => o

def AlgoSt.callback : AlgoSt → Option Nat
  | .mk _ _ _ c _ _ => c

def AlgoSt.saveHistory : AlgoSt → Bool
  | .mk _ _ _ _ s _ => s

def AlgoSt.history : AlgoSt → Option (List AlgoSt)
  | .mk _ _ _ _ _ h => h

/-- Replacing the live population (a later mutation of `self.pop`). -/
def AlgoSt.setPop (p : Population) : AlgoSt → AlgoSt
  | .mk g _ o c s h => .mk g p o c s h

/-- Model of `Algorithm._each_iteration`: display and callback invocation do not
change the run state; when `save_history` is set, `history` and `callback`
are detached (`None`), the remaining state is deep-copied — under value
semantics the copy is the detached state itself — the originals are
reattached, and the copy is appended to `history`.  (Appending to a `None`
history would fail in the source; `initialize` always sets `[]`.) -/
def AlgoSt.eachIteration : AlgoSt → AlgoSt
  | .mk g p o c s h =>
    if s then
      let snapshot := AlgoSt.mk g p o none s none
      .mk g p o c s (h.map fun l => l ++ [snapshot])
    else
      .mk g p o c s h

/-- Model of `Algorithm._set_optimum`: always `filter_optimum(self.pop,
least_infeasible=True)`, regardless of `return_least_infeasible`. -/
def AlgoSt.setOptimum : AlgoSt → AlgoSt
  | .mk g p _ c s h => .mk g p (filterOptimum p true) c s h

/-- Model of `Algorithm.next`: increment `n_gen`, run the abstract `_next` hook —
which per the spec contract produces and evaluates the next population from
the current one — recompute the optimum, then per-iteration bookkeeping. -/
def AlgoSt.next (hook : Population → Population) : AlgoSt → AlgoSt
  | .mk g p o c s h =>
    (AlgoSt.setOptimum (AlgoSt.mk (g + 1) (hook p) o c s h)).eachIteration

/-- The initial generation of `Algorithm._solve`: set `n_gen = 1`, run the
abstract `_initialize` hook (producing the first population), then
`_set_optimum` and `_each_iteration`. -/
def AlgoSt.initGen (initPop : Population) : AlgoSt → AlgoSt
  | .mk _ _ o c s h =>
    (AlgoSt.setOptimum (AlgoSt.mk 1 initPop o c s h)).eachIteration

/-- The termination loop of `_solve`, with explicit fuel; returns the final
state together with the number of `next()` calls made. -/
def solveLoop (hook : Population → Population) (cont : AlgoSt → Bool) :
    Nat → AlgoSt → AlgoSt × Nat
  | 0, st => (st, 0)
  | fuel + 1, st =>
    if cont st then
      let r := solveLoop hook cont fuel (st.next hook)
      (r.1, r.2 + 1)
    else
      (st, 0)

/-- Model of `Algorithm._solve`: a missing termination criterion is fatal; otherwise
the initial generation is produced and the termination loop runs
(`_finalize` is a no-op). -/
def runSolve (termination : Option (AlgoSt → Bool)) (initPop : Population)
    (hook : Population → Population) (fuel : Nat) (st : AlgoSt) :
    Except String (AlgoSt × Nat) :=
  match termination with
  | none =>
    .error ("No termination criterion defined and algorithm has no default termination implemented!")
  | some cont => .ok (solveLoop hook cont fuel (st.initGen initPop))

/-- The dominance relation between row indices of an objective matrix. -/
def domRel (F : List (List ℚ)) (i j : Fin F.length) : Prop :=
  dominates (F.getD i []) (F.getD j []) = true

/-- Spec example scenario: four feasible individuals, objective matrix
`[[1,4],[2,3],[1,1],[4,1]]`: individual 3 dominates the rest. -/
theorem filterOptimum_example_dominated :
    filterOptimum
      [⟨[0], [1, 4], [], 0⟩, ⟨[1], [2, 3], [], 0⟩,
       ⟨[2], [1, 1], [], 0⟩, ⟨[3], [4, 1], [], 0⟩] false =
      some [⟨[2], [1, 1], [], 0⟩] := by decide

/-- Spec example scenario: four feasible, mutually non-dominated
individuals, objective matrix `[[1,4],[2,3],[3,2],[4,1]]`: all four are
returned. -/
theorem filterOptimum_example_front :
    filterOptimum
      [⟨[0], [1, 4], [], 0⟩, ⟨[1], [2, 3], [], 0⟩,
       ⟨[2], [3, 2], [], 0⟩, ⟨[3], [4, 1], [], 0⟩] false =
      some [⟨[0], [1, 4], [], 0⟩, ⟨[1], [2, 3], [], 0⟩,
            ⟨[2], [3, 2], [], 0⟩, ⟨[3], [4, 1], [], 0⟩] := by decide

/-- Spec example scenario: no feasible individuals, constraint violations
`[5,1,9]` (the spec's `[0.5,0.1,0.9]` scaled), `least_infeasible=True`:
index 1 is returned. -/
theorem filterOptimum_example_least_infeasible :
    filterOptimum
      [⟨[0], [1], [], 5⟩, ⟨[1], [2], [], 1⟩, ⟨[2], [3], [], 9⟩] true =
      some [⟨[1], [2], [], 1⟩] := by decide

theorem AlgoSt.n_gen_eachIteration (st : AlgoSt) :
    st.eachIteration.n_gen = st.n_gen := by
  cases st with
  | mk g p o c s h => cases s <;> rfl

theorem AlgoSt.pop_eachIteration (st : AlgoSt) :
    st.eachIteration.pop = st.pop := by
  cases st with
  | mk g p o c s h => cases s <;> rfl

theorem AlgoSt.opt_eachIteration (st : AlgoSt) :
    st.eachIteration.opt = st.opt := by
  cases st with
  | mk g p o c s h => cases s <;> rfl

theorem AlgoSt.n_gen_next (hook : Population → Population) (st : AlgoSt) :
    (st.next hook).n_gen = st.n_gen + 1 := by
  cases st with
  | mk g p o c s h => cases s <;> rfl

theorem AlgoSt.pop_next (hook : Population → Population) (st : AlgoSt) :
    (st.next hook).pop = hook st.pop := by
  cases st with
  | mk g p o c s h => cases s <;> rfl

theorem AlgoSt.opt_next (hook : Population → Population) (st : AlgoSt) :
    (st.next hook).opt = filterOptimum (hook st.pop) true := by
  cases st with
  | mk g p o c s h => cases s <;> rfl

theorem AlgoSt.n_gen_initGen (initPop : Population) (st : AlgoSt) :
    (st.initGen initPop).n_gen = 1 := by
  cases st with
  | mk g p o c s h => cases s <;> rfl

theorem solveLoop_n_gen (hook : Population → Population)
    (cont : AlgoSt → Bool) (fuel : Nat) (st : AlgoSt) :
    (solveLoop hook cont fuel st).1.n_gen =
      st.n_gen + (solveLoop hook cont fuel st).2 := by
  induction fuel generalizing st with
  | zero => rfl
  | succ fuel ih =>
    simp only [solveLoop]
    by_cases hc : cont st = true
    · simp only [hc, if_true]
      have := ih (st.next hook)
      rw [AlgoSt.n_gen_next] at this
      omega
    · simp [hc]

/-- C5, counterexample: with a termination configured at construction
(token `1`) and a different explicit `initialize` argument (token `2`),
the source keeps the configured value, while the claimed precedence
selects the argument. -/
theorem c5_precedence_counterexample :
    resolveTermination (some 1) (some 2) none = some 1 ∧
    resolveTerminationClaim (some 1) (some 2) none = some 2 ∧
    resolveTermination (some 1) (some 2) none ≠
      resolveTerminationClaim (some 1) (some 2) none := by
  exact ⟨rfl, rfl, by decide⟩

/-- C5, amended: `initialize` resolves the termination criterion with the
previously configured value first; the explicit argument is used only when
no termination was previously configured; else the built-in default. -/
theorem c5_precedence_amended (selfTermination arg dflt : Option Nat) :
    resolveTermination selfTermination arg dflt =
      match selfTermination with
      | some t => some t
      | none =>
        match arg with
        | some t => some t
        | none => dflt := by
  cases selfTermination <;> cases arg <;> rfl

/-- C7: `_solve` raises the configuration error exactly when no termination
criterion was resolved; with a resolved criterion it proceeds into the
generational loop and completes without a configuration error. -/
theorem c7_termination_error (initPop : Population)
    (hook : Population → Population) (fuel : Nat) (st : AlgoSt) :
    (∃ msg, runSolve none initPop hook fuel st = .error msg) ∧
    ∀ cont, runSolve (some cont) initPop hook fuel st =
      .ok (solveLoop hook cont fuel (st.initGen initPop)) :=
  ⟨⟨_, rfl⟩, fun _ => rfl⟩

/-- C8: the initial generation of `_solve` has `n_gen = 1` (set before the
first population is produced and never changed by the bookkeeping), every
`next()` call increments `n_gen` by exactly one, and after `solve()` the
counter equals 1 plus the number of `next()` calls made by the termination
loop. -/
theorem c8_generation_count (initPop : Population)
    (hook : Population → Population) (cont : AlgoSt → Bool) (fuel : Nat)
    (st fin : AlgoSt) (k : Nat)
    (h : runSolve (some cont) initPop hook fuel st = .ok (fin, k)) :
    (st.initGen initPop).n_gen = 1 ∧
    (∀ s : AlgoSt, (s.next hook).n_gen = s.n_gen + 1) ∧
    fin.n_gen = 1 + k := by
  refine ⟨AlgoSt.n_gen_initGen initPop st, AlgoSt.n_gen_next hook, ?_⟩
  have hok : solveLoop hook cont fuel (st.initGen initPop) = (fin, k) := by
    have := h
    simp only [runSolve] at this
    exact Except.ok.inj this
  have := solveLoop_n_gen hook cont fuel (st.initGen initPop)
  rw [hok, AlgoSt.n_gen_initGen] at this
  simpa using this

theorem c8_generation_count_witness :
    ((AlgoSt.mk 0 [] none none false none).initGen []).n_gen = 1 ∧
    (∀ s : AlgoSt, (s.next id).n_gen = s.n_gen + 1) ∧
    ((AlgoSt.mk 0 [] none none false none).initGen []).n_gen = 1 + 0 :=
  c8_generation_count [] id (fun _ => false) 0
    (AlgoSt.mk 0 [] none none false none)
    ((AlgoSt.mk 0 [] none none false none).initGen []) 0 rfl

/-- C9: with history capture enabled, the bookkeeping step appends exactly
one snapshot to `history`; the snapshot carries the live generation
counter, population and optimum but has `callback` and `history` detached
(`None`), so no snapshot contains prior snapshots; and replacing the live
population afterwards leaves the appended snapshot (and the whole history)
unchanged. -/
theorem c9_history_snapshot (st : AlgoSt) (l : List AlgoSt)
    (hs : st.saveHistory = true) (hh : st.history = some l) :
    ∃ snap : AlgoSt,
      st.eachIteration.history = some (l ++ [snap]) ∧
      snap.callback = none ∧ snap.history = none ∧
      snap.n_gen = st.n_gen ∧ snap.pop = st.pop ∧ snap.opt = st.opt ∧
      ∀ p : Population,
        (st.eachIteration.setPop p).history = some (l ++ [snap]) := by
  cases st with
  | mk g p o c s h =>
    cases s with
    | false => exact absurd hs (by simp [AlgoSt.saveHistory])
    | true =>
      have hl : h = some l := hh
      subst hl
      exact ⟨AlgoSt.mk g p o none true none, rfl, rfl, rfl, rfl, rfl, rfl,
        fun _ => rfl⟩

theorem c9_history_snapshot_witness :
    ∃ snap : AlgoSt,
      (AlgoSt.mk 1 [] none (some 7) true (some [])).eachIteration.history =
        some ([] ++ [snap]) ∧
      snap.callback = none ∧ snap.history = none ∧
      snap.n_gen = (AlgoSt.mk 1 [] none (some 7) true (some [])).n_gen ∧
      snap.pop = (AlgoSt.mk 1 [] none (some 7) true (some [])).pop ∧
      snap.opt = (AlgoSt.mk 1 [] none (some 7) true (some [])).opt ∧
      ∀ p : Population,
        ((AlgoSt.mk 1 [] none (some 7) true
            (some [])).eachIteration.setPop p).history = some ([] ++ [snap]) :=
  c9_history_snapshot (AlgoSt.mk 1 [] none (some 7) true (some [])) [] rfl rfl

theorem minWithIndex_cons (x : ℚ) (xs : List ℚ) :
    minWithIndex (x :: xs) =
      match minWithIndex xs with
      | none => some (x, 0)
      | some (v, j) => if x ≤ v then some (x, 0) else some (v, j + 1) := rfl

theorem minWithIndex_spec (xs : List ℚ) (hne : xs ≠ []) :
    ∃ v j, minWithIndex xs = some (v, j) ∧ j < xs.length ∧
      xs.getD j 0 = v ∧ (∀ i < xs.length, v ≤ xs.getD i 0) ∧
      ∀ i < j, v < xs.getD i 0 := by
  induction xs with
  | nil => exact absurd rfl hne
  | cons x t ih =>
    cases t with
    | nil =>
      refine ⟨x, 0, rfl, by simp, rfl, ?_, ?_⟩
      · intro i hi
        have hi0 : i = 0 := by simp at hi; omega
        subst hi0
        simp
      · intro i hi
        exact absurd hi (Nat.not_lt_zero i)
    | cons y t2 =>
      obtain ⟨v, j, hmw, hj, hget, hmin, hfirst⟩ := ih (by simp)
      by_cases hx : x ≤ v
      · refine ⟨x, 0, ?_, by simp, by simp, ?_, ?_⟩
        · rw [minWithIndex_cons, hmw]
          simp [hx]
        · intro i hi
          cases i with
          | zero => simp
          | succ i2 =>
            have h2 : v ≤ (y :: t2).getD i2 0 := hmin i2 (by simpa using hi)
            have h3 : (x :: y :: t2).getD (i2 + 1) 0 = (y :: t2).getD i2 0 :=
              rfl
            rw [h3]
            exact le_trans hx h2
        · intro i hi
          exact absurd hi (Nat.not_lt_zero i)
      · have hvx : v < x := lt_of_not_le hx
        refine ⟨v, j + 1, ?_, by simpa using Nat.succ_lt_succ hj, ?_, ?_, ?_⟩
        · rw [minWithIndex_cons, hmw]
          simp [hx]
        · simpa using hget
        · intro i hi
          cases i with
          | zero => simpa using le_of_lt hvx
          | succ i2 => simpa using hmin i2 (by simpa using hi)
        · intro i hi
          cases i with
          | zero => simpa using hvx
          | succ i2 => simpa using hfirst i2 (by omega)

theorem getD_map_lt {α β : Type} (f : α → β) (l : List α) (i : Nat)
    (h : i < l.length) (d : α) (d2 : β) :
    (l.map f).getD i d2 = f (l.getD i d) := by
  rw [List.getD_eq_getElem _ _ (by simpa using h), List.getD_eq_getElem _ _ h,
    List.getElem_map]

/-- Behaviour of `filter_optimum` on a population with no feasible
individual. -/
theorem filterOptimum_no_feasible (pop : Population)
    (hinf : pop.all (fun ind => ! ind.feasible) = true) :
    filterOptimum pop false = none ∧
    (pop ≠ [] →
      ∃ m j, filterOptimum pop true = some [m] ∧ pop[j]? = some m ∧
        (∀ i < pop.length, m.CV ≤ (pop.getD i default).CV) ∧
        (∀ i < j, m.CV < (pop.getD i default).CV)) := by
  have hfe : pop.filter (fun ind => ind.feasible) = [] := by
    rw [List.filter_eq_nil_iff]
    intro a ha
    simpa using List.all_eq_true.mp hinf a ha
  constructor
  · simp [filterOptimum, hfe]
  · intro hne
    have hmapne : pop.map (fun ind => ind.CV) ≠ [] := by simpa using hne
    obtain ⟨v, j, hmw, hj, hget, hmin, hfirst⟩ := minWithIndex_spec _ hmapne
    rw [List.length_map] at hj
    have hargmin : argmin (pop.map fun ind => ind.CV) = some j := by
      rw [argmin, hmw]
      rfl
    have hpj : pop[j]? = some (pop.getD j default) := by
      rw [List.getD_eq_getElem _ _ hj]
      exact List.getElem?_eq_getElem hj
    have hv : (pop.getD j default).CV = v := by
      rw [← hget, getD_map_lt (fun ind => ind.CV) pop j hj default 0]
    refine ⟨pop.getD j default, j, ?_, hpj, ?_, ?_⟩
    · simp only [filterOptimum, hfe, List.length_nil, lt_irrefl, if_false,
        if_true, hargmin, hpj]
      rfl
    · intro i hi
      rw [hv]
      have := hmin i (by simpa using hi)
      rwa [getD_map_lt (fun ind => ind.CV) pop i hi default 0] at this
    · intro i hi
      rw [hv]
      have hilen : i < pop.length := lt_trans hi hj
      have := hfirst i hi
      rwa [getD_map_lt (fun ind => ind.CV) pop i hilen default 0] at this

/-- C3: on a population with no feasible individual, `filter_optimum`
returns `None` when `least_infeasible` is false; when it is true (and the
population is non-empty, as every evaluated population is) it returns, as
a one-element population, the individual with minimum `CV`, ties broken by
first occurrence in the collection's order. -/
theorem c3_least_infeasible (pop : Population)
    (hinf : pop.all (fun ind => ! ind.feasible) = true) :
    filterOptimum pop false = none ∧
    (pop ≠ [] →
      ∃ m j, filterOptimum pop true = some [m] ∧ pop[j]? = some m ∧
        (∀ i < pop.length, m.CV ≤ (pop.getD i default).CV) ∧
        (∀ i < j, m.CV < (pop.getD i default).CV)) :=
  filterOptimum_no_feasible pop hinf

theorem c3_least_infeasible_witness :
    (filterOptimum [Individual.mk [0] [1] [] 5, Individual.mk [1] [2] [] 1,
        Individual.mk [2] [3] [] 9] false = none) ∧
    (([Individual.mk [0] [1] [] 5, Individual.mk [1] [2] [] 1,
        Individual.mk [2] [3] [] 9] : Population) ≠ [] →
      ∃ m j,
        filterOptimum [Individual.mk [0] [1] [] 5, Individual.mk [1] [2] [] 1,
          Individual.mk [2] [3] [] 9] true = some [m] ∧
        ([Individual.mk [0] [1] [] 5, Individual.mk [1] [2] [] 1,
          Individual.mk [2] [3] [] 9] : Population)[j]? = some m ∧
        (∀ i < ([Individual.mk [0] [1] [] 5, Individual.mk [1] [2] [] 1,
            Individual.mk [2] [3] [] 9] : Population).length,
          m.CV ≤ (([Individual.mk [0] [1] [] 5, Individual.mk [1] [2] [] 1,
            Individual.mk [2] [3] [] 9] : Population).getD i default).CV) ∧
        (∀ i < j,
          m.CV < (([Individual.mk [0] [1] [] 5, Individual.mk [1] [2] [] 1,
            Individual.mk [2] [3] [] 9] : Population).getD i default).CV)) :=
  c3_least_infeasible
    [Individual.mk [0] [1] [] 5, Individual.mk [1] [2] [] 1,
      Individual.mk [2] [3] [] 9] (by decide)

theorem getD_mem_of_lt {α : Type} (l : List α) (i : Nat) (h : i < l.length)
    (d : α) : l.getD i d ∈ l := by
  rw [List.getD_eq_getElem _ _ h]
  exact List.getElem_mem h

theorem flatten_singleton_rows (l : List Individual)
    (h : ∀ ind ∈ l, ind.F.length = 1) :
    (l.map fun ind => ind.F).flatten = l.map fun ind => ind.F.getD 0 0 := by
  induction l with
  | nil => rfl
  | cons a t ih =>
    obtain ⟨x, hx⟩ := List.length_eq_one.mp (h a (by simp))
    simp only [List.map_cons, List.flatten_cons,
      ih fun ind hi => h ind (List.mem_cons_of_mem a hi)]
    rw [hx]
    rfl

/-- Behaviour of `filter_optimum` on a single-objective population with a
feasible individual. -/
theorem filterOptimum_single_obj (pop : Population) (least : Bool)
    (hfe : pop.any (fun ind => ind.feasible) = true)
    (hobj : ∀ ind ∈ pop, ind.F.length = 1) :
    ∃ m j, filterOptimum pop least = some [m] ∧
      (pop.filter fun ind => ind.feasible)[j]? = some m ∧
      (∀ i < (pop.filter fun ind => ind.feasible).length,
        m.F.getD 0 0 ≤
          ((pop.filter fun ind => ind.feasible).getD i default).F.getD 0 0) ∧
      (∀ i < j,
        m.F.getD 0 0 <
          ((pop.filter fun ind => ind.feasible).getD i default).F.getD 0 0) := by
  have hne : (pop.filter fun ind => ind.feasible) ≠ [] := by
    obtain ⟨a, ha, hfa⟩ := List.any_eq_true.mp hfe
    exact List.ne_nil_of_mem (List.mem_filter.mpr ⟨ha, hfa⟩)
  have hobjf : ∀ ind ∈ (pop.filter fun ind => ind.feasible),
      ind.F.length = 1 := fun ind hi => hobj ind (List.mem_filter.mp hi).1
  have hpos : 0 < (pop.filter fun ind => ind.feasible).length :=
    List.length_pos.mpr hne
  have hw : (((pop.filter fun ind => ind.feasible).map
      fun ind => ind.F).getD 0 []).length = 1 := by
    rw [getD_map_lt (fun ind => ind.F) _ 0 hpos default []]
    exact hobjf _ (getD_mem_of_lt _ 0 hpos default)
  have hflat : ((pop.filter fun ind => ind.feasible).map
        fun ind => ind.F).flatten =
      (pop.filter fun ind => ind.feasible).map fun ind => ind.F.getD 0 0 :=
    flatten_singleton_rows _ hobjf
  have hmapne : ((pop.filter fun ind => ind.feasible).map
      fun ind => ind.F.getD 0 0) ≠ [] := by simpa using hne
  obtain ⟨v, j, hmw, hj, hget, hmin, hfirst⟩ := minWithIndex_spec _ hmapne
  rw [List.length_map] at hj
  have hargmin : argmin ((pop.filter fun ind => ind.feasible).map
      fun ind => ind.F).flatten = some j := by
    rw [hflat, argmin, hmw]
    rfl
  have hpj : (pop.filter fun ind => ind.feasible)[j]? =
      some ((pop.filter fun ind => ind.feasible).getD j default) := by
    rw [List.getD_eq_getElem _ _ hj]
    exact List.getElem?_eq_getElem hj
  have hv : ((pop.filter fun ind => ind.feasible).getD j default).F.getD 0 0 =
      v := by
    rw [← hget, getD_map_lt (fun ind => ind.F.getD 0 0) _ j hj default 0]
  refine ⟨(pop.filter fun ind => ind.feasible).getD j default, j, ?_, hpj,
    ?_, ?_⟩
  · simp only [filterOptimum]
    rw [if_pos hpos, hw, if_neg (lt_irrefl 1), hargmin]
    simp only [hpj]
    rfl
  · intro i hi
    rw [hv]
    have := hmin i (by simpa using hi)
    rwa [getD_map_lt (fun ind => ind.F.getD 0 0) _ i hi default 0] at this
  · intro i hi
    rw [hv]
    have hilen : i < (pop.filter fun ind => ind.feasible).length :=
      lt_trans hi hj
    have := hfirst i hi
    rwa [getD_map_lt (fun ind => ind.F.getD 0 0) _ i hilen default 0] at this

/-- C2: on a population with exactly one objective and at least one
feasible individual, `filter_optimum` — with either flag value — returns
the feasible individual with minimum objective value, ties broken by first
occurrence in the feasible subset's stable order, wrapped as a one-element
population (callers receive a population or `None`, never a bare
individual). -/
theorem c2_single_objective (pop : Population) (least : Bool)
    (hfe : pop.any (fun ind => ind.feasible) = true)
    (hobj : ∀ ind ∈ pop, ind.F.length = 1) :
    ∃ m j, filterOptimum pop least = some [m] ∧
      (pop.filter fun ind => ind.feasible)[j]? = some m ∧
      (∀ i < (pop.filter fun ind => ind.feasible).length,
        m.F.getD 0 0 ≤
          ((pop.filter fun ind => ind.feasible).getD i default).F.getD 0 0) ∧
      (∀ i < j,
        m.F.getD 0 0 <
          ((pop.filter fun ind => ind.feasible).getD i default).F.getD 0 0) :=
  filterOptimum_single_obj pop least hfe hobj

theorem c2_single_objective_witness :
    ∃ m j,
      filterOptimum [Individual.mk [0] [3] [] 0, Individual.mk [1] [2] [] 1,
        Individual.mk [2] [1] [] 0] false = some [m] ∧
      (([Individual.mk [0] [3] [] 0, Individual.mk [1] [2] [] 1,
          Individual.mk [2] [1] [] 0] : Population).filter
        fun ind => ind.feasible)[j]? = some m ∧
      (∀ i < (([Individual.mk [0] [3] [] 0, Individual.mk [1] [2] [] 1,
          Individual.mk [2] [1] [] 0] : Population).filter
            fun ind => ind.feasible).length,
        m.F.getD 0 0 ≤
          ((([Individual.mk [0] [3] [] 0, Individual.mk [1] [2] [] 1,
            Individual.mk [2] [1] [] 0] : Population).filter
              fun ind => ind.feasible).getD i default).F.getD 0 0) ∧
      (∀ i < j,
        m.F.getD 0 0 <
          ((([Individual.mk [0] [3] [] 0, Individual.mk [1] [2] [] 1,
            Individual.mk [2] [1] [] 0] : Population).filter
              fun ind => ind.feasible).getD i default).F.getD 0 0) :=
  c2_single_objective
    [Individual.mk [0] [3] [] 0, Individual.mk [1] [2] [] 1,
      Individual.mk [2] [1] [] 0] false (by decide) (by decide)

theorem all_map_general {α β : Type} (f : α → β) (l : List α)
    (p : β → Bool) : (l.map f).all p = l.all fun a => p (f a) := by
  induction l with
  | nil => rfl
  | cons a t ih => simp [ih]

theorem dominates_self (a : List ℚ) : dominates a a = false := by
  have h : ((a.zip a).any fun p => decide (p.1 < p.2)) = false := by
    induction a with
    | nil => rfl
    | cons x t ih => simp [List.zip_cons_cons, ih]
  simp [dominates, h]

theorem zip_all_le_trans (a : List ℚ) : ∀ (b c : List ℚ),
    a.length = b.length → b.length = c.length →
    ((a.zip b).all fun p => decide (p.1 ≤ p.2)) = true →
    ((b.zip c).all fun p => decide (p.1 ≤ p.2)) = true →
    ((a.zip c).all fun p => decide (p.1 ≤ p.2)) = true := by
  induction a with
  | nil => intro b c _ _ _ _; simp
  | cons x xs ih =>
    intro b c hab hbc h1 h2
    cases b with
    | nil => simp at hab
    | cons y ys =>
      cases c with
      | nil => simp at hbc
      | cons z zs =>
        simp only [List.zip_cons_cons, List.all_cons, Bool.and_eq_true,
          decide_eq_true_eq] at h1 h2 ⊢
        exact ⟨le_trans h1.1 h2.1,
          ih ys zs (by simpa using hab) (by simpa using hbc) h1.2 h2.2⟩

theorem zip_any_lt_of_le (a : List ℚ) : ∀ (b c : List ℚ),
    a.length = b.length → b.length = c.length →
    ((a.zip b).any fun p => decide (p.1 < p.2)) = true →
    ((b.zip c).all fun p => decide (p.1 ≤ p.2)) = true →
    ((a.zip c).any fun p => decide (p.1 < p.2)) = true := by
  induction a with
  | nil => intro b c _ _ h1 _; simp at h1
  | cons x xs ih =>
    intro b c hab hbc h1 h2
    cases b with
    | nil => simp at hab
    | cons y ys =>
      cases c with
      | nil => simp at hbc
      | cons z zs =>
        simp only [List.zip_cons_cons, List.any_cons, List.all_cons,
          Bool.or_eq_true, Bool.and_eq_true, decide_eq_true_eq] at h1 h2 ⊢
        rcases h1 with h1 | h1
        · exact Or.inl (lt_of_lt_of_le h1 h2.1)
        · exact Or.inr (ih ys zs (by simpa using hab) (by simpa using hbc)
            h1 h2.2)

theorem dominates_trans (a b c : List ℚ) (hab : a.length = b.length)
    (hbc : b.length = c.length) (h1 : dominates a b = true)
    (h2 : dominates b c = true) : dominates a c = true := by
  simp only [dominates, Bool.and_eq_true] at h1 h2 ⊢
  exact ⟨zip_all_le_trans a b c hab hbc h1.1 h2.1,
    zip_any_lt_of_le a b c hab hbc h1.2 h2.1⟩

/-- On a non-empty rectangular objective matrix the non-dominated front is
non-empty: dominance between equal-length rows is transitive and
irreflexive, hence on finitely many rows a minimal (non-dominated) row
exists. -/
theorem nonDominatedFront_mem (w : Nat) (F : List (List ℚ))
    (hne : F ≠ []) (hrect : ∀ r ∈ F, r.length = w) :
    ∃ i, i ∈ nonDominatedFront F := by
  have hn : 0 < F.length := List.length_pos.mpr hne
  have hlen : ∀ i : Fin F.length, (F.getD (i : Nat) []).length = w :=
    fun i => hrect _ (getD_mem_of_lt F i i.isLt [])
  haveI : IsTrans (Fin F.length) (domRel F) :=
    ⟨fun i j k hij hjk => dominates_trans _ _ _
      (by rw [hlen i, hlen j]) (by rw [hlen j, hlen k]) hij hjk⟩
  haveI : IsIrrefl (Fin F.length) (domRel F) :=
    ⟨fun i => by simp [domRel, dominates_self]⟩
  obtain ⟨i0, -, hmin⟩ :=
    (Finite.wellFounded_of_trans_of_irrefl (domRel F)).has_min Set.univ
      ⟨⟨0, hn⟩, Set.mem_univ _⟩
  have hval : (i0 : Nat) ∈ nonDominatedFront F := by
    rw [nonDominatedFront, List.mem_filter]
    refine ⟨List.mem_range.mpr i0.isLt, ?_⟩
    rw [List.all_eq_true]
    intro fj hfj
    obtain ⟨k, hk, hkeq⟩ := List.mem_iff_getElem.mp hfj
    have hnd : ¬ domRel F ⟨k, hk⟩ i0 := hmin ⟨k, hk⟩ (Set.mem_univ _)
    have hgd : F.getD k [] = fj := by
      rw [List.getD_eq_getElem _ _ hk]; exact hkeq
    rw [domRel, hgd] at hnd
    have hfalse : dominates fj (F.getD (i0 : Nat) []) = false := by
      cases hdb : dominates fj (F.getD (i0 : Nat) []) with
      | false => rfl
      | true => exact absurd hdb hnd
    rw [List.getD_eq_getElem _ _ i0.isLt] at hfalse
    simp [hfalse]
  exact ⟨(i0 : Nat), hval⟩

theorem filter_range_getD {α : Type} (l : List α) (p : α → Bool) (d : α) :
    (((List.range l.length).filter fun i => p (l.getD i d)).filterMap
      fun i => l[i]?) = l.filter p := by
  induction l with
  | nil => rfl
  | cons a t ih =>
    rw [List.length_cons, List.range_succ_eq_map, List.filter_cons]
    simp only [List.getD_cons_zero]
    have hsucc : ((List.range t.length).map Nat.succ).filter
        (fun i => p ((a :: t).getD i d)) =
        ((List.range t.length).filter fun i => p (t.getD i d)).map
          Nat.succ := by
      rw [List.filter_map]
      exact congrArg (List.map Nat.succ) (List.filter_congr fun i _ => by
        simp [Function.comp, Nat.succ_eq_add_one, List.getD_cons_succ])
    have hcomp : ((fun i => (a :: t)[i]?) ∘ Nat.succ) = fun i => t[i]? := by
      funext i
      simp [Function.comp]
    by_cases hpa : p a = true
    · rw [if_pos hpa, hsucc, List.filterMap_cons]
      simp only [List.getElem?_cons_zero]
      rw [List.filterMap_map, hcomp, ih, List.filter_cons, if_pos hpa]
    · rw [if_neg hpa, hsucc, List.filterMap_map, hcomp, ih,
        List.filter_cons, if_neg hpa]

/-- Behaviour of `filter_optimum` on a multi-objective population with a
feasible individual: it computes exactly the Pareto subset of the feasible
subset. -/
theorem filterOptimum_multi_obj (pop : Population) (n_obj : Nat) (least : Bool)
    (hfe : pop.any (fun ind => ind.feasible) = true)
    (hobj : ∀ ind ∈ pop, ind.F.length = n_obj) (hn : 1 < n_obj) :
    filterOptimum pop least = some (paretoFeasSubset pop) := by
  have hne : (pop.filter fun ind => ind.feasible) ≠ [] := by
    obtain ⟨a, ha, hfa⟩ := List.any_eq_true.mp hfe
    exact List.ne_nil_of_mem (List.mem_filter.mpr ⟨ha, hfa⟩)
  have hpos : 0 < (pop.filter fun ind => ind.feasible).length :=
    List.length_pos.mpr hne
  have hobjf : ∀ ind ∈ (pop.filter fun ind => ind.feasible),
      ind.F.length = n_obj := fun ind hi => hobj ind (List.mem_filter.mp hi).1
  have hw : (((pop.filter fun ind => ind.feasible).map
      fun ind => ind.F).getD 0 []).length = n_obj := by
    rw [getD_map_lt (fun ind => ind.F) _ 0 hpos default []]
    exact hobjf _ (getD_mem_of_lt _ 0 hpos default)
  simp only [filterOptimum]
  rw [if_pos hpos, hw, if_pos hn]
  congr 1
  rw [nonDominatedFront, List.length_map]
  have hcong :
      (List.range (pop.filter fun ind => ind.feasible).length).filter
        (fun i =>
          ((pop.filter fun ind => ind.feasible).map fun ind => ind.F).all
            fun fj => ! dominates fj
              (((pop.filter fun ind => ind.feasible).map
                fun ind => ind.F).getD i [])) =
      (List.range (pop.filter fun ind => ind.feasible).length).filter
        (fun i =>
          ((pop.filter fun ind => ind.feasible).map fun ind => ind.F).all
            fun fj => ! dominates fj
              (((pop.filter fun ind => ind.feasible).getD i default).F)) :=
    List.filter_congr fun i hi => by
      rw [getD_map_lt (fun ind => ind.F) _ i (List.mem_range.mp hi)
        default []]
  rw [hcong, filter_range_getD (pop.filter fun ind => ind.feasible)
    (fun a => ((pop.filter fun ind => ind.feasible).map fun ind => ind.F).all
      fun fj => ! dominates fj a.F) default]
  simp only [paretoFeasSubset]
  exact List.filter_congr fun a _ => by rw [all_map_general]

/-- C1: on a population with more than one objective and at least one
feasible individual, `filter_optimum` — with either flag value — returns
exactly the non-dominated subset of the feasible subset of the population,
in the non-dominated sorting service's output order (which preserves the
feasible subset's stable order). -/
theorem c1_multi_objective (pop : Population) (n_obj : Nat) (least : Bool)
    (hfe : pop.any (fun ind => ind.feasible) = true)
    (hobj : ∀ ind ∈ pop, ind.F.length = n_obj) (hn : 1 < n_obj) :
    filterOptimum pop least = some (paretoFeasSubset pop) :=
  filterOptimum_multi_obj pop n_obj least hfe hobj hn

theorem c1_multi_objective_witness :
    filterOptimum
      [Individual.mk [0] [1, 4] [] 0, Individual.mk [1] [2, 3] [] 0,
       Individual.mk [2] [1, 1] [] 0, Individual.mk [3] [4, 1] [] 0] false =
      some (paretoFeasSubset
        [Individual.mk [0] [1, 4] [] 0, Individual.mk [1] [2, 3] [] 0,
         Individual.mk [2] [1, 1] [] 0, Individual.mk [3] [4, 1] [] 0]) :=
  c1_multi_objective _ 2 false (by decide) (by decide) (by decide)

/-- On a rectangular population with at least one feasible individual the
Pareto subset of the feasible subset is non-empty. -/
theorem paretoFeasSubset_ne_nil (pop : Population) (n_obj : Nat)
    (hfe : pop.any (fun ind => ind.feasible) = true)
    (hobj : ∀ ind ∈ pop, ind.F.length = n_obj) :
    paretoFeasSubset pop ≠ [] := by
  have hne : (pop.filter fun ind => ind.feasible) ≠ [] := by
    obtain ⟨a, ha, hfa⟩ := List.any_eq_true.mp hfe
    exact List.ne_nil_of_mem (List.mem_filter.mpr ⟨ha, hfa⟩)
  have hFne : ((pop.filter fun ind => ind.feasible).map
      fun ind => ind.F) ≠ [] := by simpa using hne
  have hrect : ∀ r ∈ ((pop.filter fun ind => ind.feasible).map
      fun ind => ind.F), r.length = n_obj := by
    intro r hr
    obtain ⟨ind, hind, rfl⟩ := List.mem_map.mp hr
    exact hobj ind (List.mem_filter.mp hind).1
  obtain ⟨i, hi⟩ := nonDominatedFront_mem n_obj _ hFne hrect
  rw [nonDominatedFront, List.mem_filter, List.mem_range,
    List.length_map] at hi
  obtain ⟨hilt, hpred⟩ := hi
  rw [getD_map_lt (fun ind => ind.F) _ i hilt default [],
    all_map_general] at hpred
  have hmem : (pop.filter fun ind => ind.feasible).getD i default ∈
      paretoFeasSubset pop := by
    simp only [paretoFeasSubset]
    exact List.mem_filter.mpr ⟨getD_mem_of_lt _ i hilt default, hpred⟩
  exact List.ne_nil_of_mem hmem

/-- The internal optimum `filter_optimum(pop, least_infeasible=True)` of a
non-empty population with at least one objective is a non-empty
population. -/
theorem filterOptimum_true_nonempty (pop : Population) (n_obj : Nat)
    (hobj : ∀ ind ∈ pop, ind.F.length = n_obj) (hn : 0 < n_obj)
    (hne : pop ≠ []) : ∃ l, filterOptimum pop true = some l ∧ l ≠ [] := by
  by_cases hfe : pop.any (fun ind => ind.feasible) = true
  · rcases Nat.lt_or_ge 1 n_obj with h1 | h1
    · exact ⟨paretoFeasSubset pop,
        filterOptimum_multi_obj pop n_obj true hfe hobj h1,
        paretoFeasSubset_ne_nil pop n_obj hfe hobj⟩
    · have hobj1 : ∀ ind ∈ pop, ind.F.length = 1 := by
        intro ind hi
        have := hobj ind hi
        omega
      obtain ⟨m, j, heq, -, -, -⟩ :=
        filterOptimum_single_obj pop true hfe hobj1
      exact ⟨[m], heq, by simp⟩
  · have hinf : pop.all (fun ind => ! ind.feasible) = true := by
      rw [List.all_eq_true]
      intro x hx
      by_cases hxf : x.feasible = true
      · exact absurd (List.any_eq_true.mpr ⟨x, hx, hxf⟩) hfe
      · simp only [Bool.not_eq_true] at hxf
        simp [hxf]
    obtain ⟨-, h2⟩ := filterOptimum_no_feasible pop hinf
    obtain ⟨m, j, heq, -, -, -⟩ := h2 hne
    exact ⟨[m], heq, by simp⟩

/-- Every member of a `filter_optimum` result computed from a population
with a feasible individual is itself feasible. -/
theorem filterOptimum_feasible_mem (pop : Population) (least : Bool)
    (l : Population)
    (hfe : 0 < (pop.filter fun ind => ind.feasible).length)
    (h : filterOptimum pop least = some l) :
    ∀ x ∈ l, x.feasible = true := by
  simp only [filterOptimum] at h
  rw [if_pos hfe] at h
  by_cases hw : 1 < (((pop.filter fun ind => ind.feasible).map
      fun ind => ind.F).getD 0 []).length
  · rw [if_pos hw] at h
    obtain rfl := Option.some.inj h
    intro x hx
    obtain ⟨i, hi, hieq⟩ := List.mem_filterMap.mp hx
    exact (List.mem_filter.mp (List.getElem?_mem hieq)).2
  · rw [if_neg hw] at h
    cases hm : argmin ((pop.filter fun ind => ind.feasible).map
        fun ind => ind.F).flatten with
    | none => rw [hm] at h; simp at h
    | some i =>
      simp only [hm] at h
      cases hg : (pop.filter fun ind => ind.feasible)[i]? with
      | none => rw [hg] at h; simp at h
      | some ind =>
        rw [hg, Option.map_some'] at h
        obtain rfl := Option.some.inj h
        intro x hx
        rw [List.mem_singleton] at hx
        subst hx
        exact (List.mem_filter.mp (List.getElem?_mem hg)).2

/-- A non-empty, entirely infeasible `filter_optimum(·, True)` result is a
single individual: it can only come from the least-infeasible branch. -/
theorem filterOptimum_all_infeasible (pop l : Population)
    (h : filterOptimum pop true = some l) (hne : l ≠ [])
    (hinf : l.any (fun ind => ind.feasible) = false) :
    ∃ m, l = [m] ∧ m.feasible = false := by
  by_cases hfe : 0 < (pop.filter fun ind => ind.feasible).length
  · obtain ⟨x, hx⟩ := List.exists_mem_of_ne_nil l hne
    have hxf := filterOptimum_feasible_mem pop true l hfe h x hx
    have : l.any (fun ind => ind.feasible) = true :=
      List.any_eq_true.mpr ⟨x, hx, hxf⟩
    rw [this] at hinf
    cases hinf
  · simp only [filterOptimum] at h
    rw [if_neg hfe, if_pos trivial] at h
    cases hm : argmin (pop.map fun ind => ind.CV) with
    | none => rw [hm] at h; simp at h
    | some i =>
      simp only [hm] at h
      cases hg : pop[i]? with
      | none => rw [hg] at h; simp at h
      | some ind =>
        rw [hg, Option.map_some'] at h
        obtain rfl := Option.some.inj h
        refine ⟨ind, rfl, ?_⟩
        simpa using hinf

/-- Applying `filter_optimum` to a one-element infeasible population with
`least_infeasible=True` returns that element. -/
theorem filterOptimum_singleton_infeasible (m : Individual)
    (hm : m.feasible = false) : filterOptimum [m] true = some [m] := by
  simp [filterOptimum, List.filter_cons, hm, argmin, minWithIndex]

/-- The `opt` field of the assembled result, as the source's three-way
branch. -/
theorem assembleResult_opt (n_obj : Nat) (rli : Bool)
    (selfOpt : Population) :
    (assembleResult n_obj rli selfOpt).opt =
      if selfOpt.length = 0 then none
      else if !(selfOpt.any fun ind => ind.feasible) then
        if rli then filterOptimum selfOpt true else none
      else some selfOpt := by
  by_cases h0 : selfOpt.length = 0
  · simp [assembleResult, h0]
  · cases hb : selfOpt.any fun ind => ind.feasible with
    | true =>
      simp only [assembleResult, h0, hb, if_false, Bool.not_true,
        Bool.false_eq_true, if_neg (fun h => h0 h)]
      split <;> rfl
    | false =>
      cases rli with
      | false => simp [assembleResult, h0, hb]
      | true =>
        cases hfo : filterOptimum selfOpt true with
        | none => simp [assembleResult, h0, hb, hfo]
        | some o =>
          simp only [assembleResult, h0, hb, hfo, Bool.not_false, if_true,
            if_false, if_neg (fun h => h0 h)]
          split <;> rfl

/-- When the assembled result carries no optimum, all four extracted
fields are `None`. -/
theorem assembleResult_none_fields (n_obj : Nat) (rli : Bool)
    (selfOpt : Population)
    (h : (assembleResult n_obj rli selfOpt).opt = none) :
    assembleResult n_obj rli selfOpt = ⟨none, .null, .null, .null, .null⟩ := by
  rw [assembleResult_opt] at h
  by_cases h0 : selfOpt.length = 0
  · simp [assembleResult, h0]
  · rw [if_neg h0] at h
    cases hb : selfOpt.any fun ind => ind.feasible with
    | true => rw [hb] at h; simp at h
    | false =>
      rw [hb] at h
      cases rli with
      | false => simp [assembleResult, h0, hb]
      | true =>
        cases hfo : filterOptimum selfOpt true with
        | none => simp [assembleResult, h0, hb, hfo]
        | some o => rw [hfo] at h; simp at h

/-- When the assembled result carries an optimum, the four extracted
fields are read from `self.opt` and squeezed exactly when the problem has
one objective and `self.opt` has one row. -/
theorem assembleResult_some (n_obj : Nat) (rli : Bool)
    (selfOpt o : Population)
    (h : (assembleResult n_obj rli selfOpt).opt = some o) :
    assembleResult n_obj rli selfOpt =
      if n_obj = 1 ∧ selfOpt.length = 1 then
        ⟨some o, .row ((selfOpt.map fun ind => ind.X).getD 0 []),
         .row ((selfOpt.map fun ind => ind.F).getD 0 []),
         .row ((selfOpt.map fun ind => [ind.CV]).getD 0 []),
         .row ((selfOpt.map fun ind => ind.G).getD 0 [])⟩
      else
        ⟨some o, .mat (selfOpt.map fun ind => ind.X),
         .mat (selfOpt.map fun ind => ind.F),
         .mat (selfOpt.map fun ind => [ind.CV]),
         .mat (selfOpt.map fun ind => ind.G)⟩ := by
  rw [assembleResult_opt] at h
  by_cases h0 : selfOpt.length = 0
  · rw [if_pos h0] at h; simp at h
  · rw [if_neg h0] at h
    cases hb : selfOpt.any fun ind => ind.feasible with
    | true =>
      rw [hb] at h
      simp only [Bool.not_true, Bool.false_eq_true, if_false] at h
      obtain rfl := Option.some.inj h
      simp only [assembleResult, h0, hb, Bool.not_true, Bool.false_eq_true,
        if_false, if_neg (fun hh => h0 hh), List.length_map]
    | false =>
      rw [hb] at h
      cases rli with
      | false => simp at h
      | true =>
        simp only [Bool.not_false, if_true] at h
        simp only [assembleResult, h0, hb, h, Bool.not_false, if_true,
          if_false, if_neg (fun hh => h0 hh), List.length_map]

/-- C10: `_set_optimum` always recomputes the optimum as
`filter_optimum(pop, least_infeasible=True)` — the flag at that call site
is unconditional, and `return_least_infeasible` is consulted only once, by
the result assembly in `solve` — so after each `next()` the optimum of a
non-empty population (with at least one objective) is a non-empty
population. -/
theorem c10_internal_optimum (hook : Population → Population) (st : AlgoSt)
    (n_obj : Nat) (hobj : ∀ ind ∈ hook st.pop, ind.F.length = n_obj)
    (hn : 0 < n_obj) (hne : hook st.pop ≠ []) :
    (st.next hook).opt = filterOptimum (st.next hook).pop true ∧
    ∃ l, (st.next hook).opt = some l ∧ l ≠ [] := by
  have h1 := AlgoSt.opt_next hook st
  have h2 := AlgoSt.pop_next hook st
  refine ⟨by rw [h1, h2], ?_⟩
  obtain ⟨l, hl, hlne⟩ :=
    filterOptimum_true_nonempty (hook st.pop) n_obj hobj hn hne
  exact ⟨l, by rw [h1, hl], hlne⟩

theorem c10_internal_optimum_witness :
    ((AlgoSt.mk 1 [] none none false (some [])).next
        fun _ => [Individual.mk [0] [1] [] 0]).opt =
      filterOptimum ((AlgoSt.mk 1 [] none none false (some [])).next
        fun _ => [Individual.mk [0] [1] [] 0]).pop true ∧
    ∃ l, ((AlgoSt.mk 1 [] none none false (some [])).next
        fun _ => [Individual.mk [0] [1] [] 0]).opt = some l ∧ l ≠ [] :=
  c10_internal_optimum (fun _ => [Individual.mk [0] [1] [] 0])
    (AlgoSt.mk 1 [] none none false (some [])) 1 (by decide) (by decide)
    (by decide)

/-- C4: in the `Result` built by `solve` — under the run invariant that
`self.opt` was produced by `_set_optimum`, i.e. equals
`filter_optimum(pop, True)` for the final population — `opt` is `None`
when the stored optimum is empty (no optimum was computed), and when it is
non-empty but entirely infeasible without `return_least_infeasible`; with
`return_least_infeasible` it is replaced by re-invoking the filter with
`least_infeasible=True`, which yields the same single least-infeasible
individual as the filter over the final population; and whenever `opt` is
`None` the `X`, `F`, `CV`, `G` fields are all `None`. -/
theorem c4_result_opt_policy (n_obj : Nat) (rli : Bool)
    (selfOpt pop : Population)
    (hinv : filterOptimum pop true = some selfOpt) :
    (selfOpt = [] → (assembleResult n_obj rli selfOpt).opt = none) ∧
    (selfOpt.any (fun ind => ind.feasible) = false → rli = false →
      (assembleResult n_obj rli selfOpt).opt = none) ∧
    (selfOpt ≠ [] → selfOpt.any (fun ind => ind.feasible) = false →
      rli = true →
      (assembleResult n_obj rli selfOpt).opt = filterOptimum selfOpt true ∧
      filterOptimum selfOpt true = filterOptimum pop true ∧
      ∃ m, filterOptimum pop true = some [m] ∧ m.feasible = false) ∧
    ((assembleResult n_obj rli selfOpt).opt = none →
      assembleResult n_obj rli selfOpt =
        ⟨none, .null, .null, .null, .null⟩) := by
  refine ⟨?_, ?_, ?_, assembleResult_none_fields n_obj rli selfOpt⟩
  · intro h
    subst h
    rw [assembleResult_opt]
    simp
  · intro hany hrli
    subst hrli
    rw [assembleResult_opt]
    by_cases h0 : selfOpt.length = 0
    · rw [if_pos h0]
    · rw [if_neg h0, hany]
      simp
  · intro hne hany hrli
    subst hrli
    have h0 : ¬ selfOpt.length = 0 := fun h =>
      hne (List.length_eq_zero.mp h)
    obtain ⟨m, hm, hmf⟩ :=
      filterOptimum_all_infeasible pop selfOpt hinv hne hany
    have hsingle : filterOptimum selfOpt true = some [m] := by
      rw [hm]
      exact filterOptimum_singleton_infeasible m hmf
    refine ⟨?_, ?_, ⟨m, ?_, hmf⟩⟩
    · rw [assembleResult_opt, if_neg h0, hany]
      simp
    · rw [hsingle, hinv, hm]
    · rw [hinv, hm]

theorem c4_result_opt_policy_witness :
    (([Individual.mk [0] [1] [] 2] : Population) = [] →
      (assembleResult 1 true [Individual.mk [0] [1] [] 2]).opt = none) ∧
    (([Individual.mk [0] [1] [] 2] : Population).any
        (fun ind => ind.feasible) = false → true = false →
      (assembleResult 1 true [Individual.mk [0] [1] [] 2]).opt = none) ∧
    (([Individual.mk [0] [1] [] 2] : Population) ≠ [] →
      ([Individual.mk [0] [1] [] 2] : Population).any
        (fun ind => ind.feasible) = false →
      true = true →
      (assembleResult 1 true [Individual.mk [0] [1] [] 2]).opt =
        filterOptimum [Individual.mk [0] [1] [] 2] true ∧
      filterOptimum [Individual.mk [0] [1] [] 2] true =
        filterOptimum [Individual.mk [0] [1] [] 2] true ∧
      ∃ m, filterOptimum [Individual.mk [0] [1] [] 2] true = some [m] ∧
        m.feasible = false) ∧
    ((assembleResult 1 true [Individual.mk [0] [1] [] 2]).opt = none →
      assembleResult 1 true [Individual.mk [0] [1] [] 2] =
        ⟨none, .null, .null, .null, .null⟩) :=
  c4_result_opt_policy 1 true [Individual.mk [0] [1] [] 2]
    [Individual.mk [0] [1] [] 2] (by decide)

/-- C6: in a `Result` whose optimum is non-null — under the run invariant
`self.opt = filter_optimum(pop, True)` — the four extracted fields are
squeezed from one-row collections down to bare rows exactly when the
problem declares one objective and exactly one individual remains in the
reported optimum; in every other non-null case they stay row-indexed
matrices.  (The source tests `len(X) == 1` on `self.opt`; under the
invariant the reported optimum has the same number of rows.) -/
theorem c6_single_objective_squeeze (n_obj : Nat) (rli : Bool)
    (selfOpt pop o : Population)
    (hinv : filterOptimum pop true = some selfOpt)
    (hopt : (assembleResult n_obj rli selfOpt).opt = some o) :
    o.length = selfOpt.length ∧
    (n_obj = 1 ∧ o.length = 1 →
      assembleResult n_obj rli selfOpt =
        ⟨some o, .row ((selfOpt.map fun ind => ind.X).getD 0 []),
         .row ((selfOpt.map fun ind => ind.F).getD 0 []),
         .row ((selfOpt.map fun ind => [ind.CV]).getD 0 []),
         .row ((selfOpt.map fun ind => ind.G).getD 0 [])⟩) ∧
    (¬(n_obj = 1 ∧ o.length = 1) →
      assembleResult n_obj rli selfOpt =
        ⟨some o, .mat (selfOpt.map fun ind => ind.X),
         .mat (selfOpt.map fun ind => ind.F),
         .mat (selfOpt.map fun ind => [ind.CV]),
         .mat (selfOpt.map fun ind => ind.G)⟩) := by
  have hlen : o.length = selfOpt.length := by
    have h := hopt
    rw [assembleResult_opt] at h
    by_cases h0 : selfOpt.length = 0
    · rw [if_pos h0] at h
      simp at h
    · rw [if_neg h0] at h
      cases hb : selfOpt.any fun ind => ind.feasible with
      | true =>
        rw [hb] at h
        simp only [Bool.not_true, Bool.false_eq_true, if_false] at h
        obtain rfl := Option.some.inj h
        rfl
      | false =>
        rw [hb] at h
        cases rli with
        | false => simp at h
        | true =>
          simp only [Bool.not_false, if_true] at h
          have hne : selfOpt ≠ [] := fun hh => h0 (by simp [hh])
          obtain ⟨m, hm, hmf⟩ :=
            filterOptimum_all_infeasible pop selfOpt hinv hne hb
          rw [hm, filterOptimum_singleton_infeasible m hmf] at h
          obtain rfl := Option.some.inj h
          rw [hm]
  have hfields := assembleResult_some n_obj rli selfOpt o hopt
  refine ⟨hlen, ?_, ?_⟩
  · intro hc
    rw [hfields, if_pos ⟨hc.1, by rw [← hlen]; exact hc.2⟩]
  · intro hc
    rw [hfields, if_neg (fun hh => hc ⟨hh.1, by rw [hlen]; exact hh.2⟩)]

theorem c6_single_objective_squeeze_witness :
    ([Individual.mk [0] [1] [] 0] : Population).length =
      ([Individual.mk [0] [1] [] 0] : Population).length ∧
    (1 = 1 ∧ ([Individual.mk [0] [1] [] 0] : Population).length = 1 →
      assembleResult 1 false [Individual.mk [0] [1] [] 0] =
        ⟨some [Individual.mk [0] [1] [] 0],
         .row ((([Individual.mk [0] [1] [] 0] : Population).map
           fun ind => ind.X).getD 0 []),
         .row ((([Individual.mk [0] [1] [] 0] : Population).map
           fun ind => ind.F).getD 0 []),
         .row ((([Individual.mk [0] [1] [] 0] : Population).map
           fun ind => [ind.CV]).getD 0 []),
         .row ((([Individual.mk [0] [1] [] 0] : Population).map
           fun ind => ind.G).getD 0 [])⟩) ∧
    (¬(1 = 1 ∧ ([Individual.mk [0] [1] [] 0] : Population).length = 1) →
      assembleResult 1 false [Individual.mk [0] [1] [] 0] =
        ⟨some [Individual.mk [0] [1] [] 0],
         .mat (([Individual.mk [0] [1] [] 0] : Population).map
           fun ind => ind.X),
         .mat (([Individual.mk [0] [1] [] 0] : Population).map
           fun ind => ind.F),
         .mat (([Individual.mk [0] [1] [] 0] : Population).map
           fun ind => [ind.CV]),
         .mat (([Individual.mk [0] [1] [] 0] : Population).map
           fun ind => ind.G)⟩) :=
  c6_single_objective_squeeze 1 false [Individual.mk [0] [1] [] 0]
    [Individual.mk [0] [1] [] 0] [Individual.mk [0] [1] [] 0]
    (by decide) (by decide)
